import Mathlib

/-!
Verification of the covariance-matrix engine of the `likely` statistical
fitting toolkit, against its specification.

The repository ships the public header `likely/CovarianceMatrix.h` (the
declaration of every engine operation, with its behavioural documentation)
and the `BinnedData` collaborator code in `likely/FitModel.cc`, but the
translation unit `CovarianceMatrix.cc` itself is not among the staged
source files.  The engine operations below are therefore modelled from the
spec (and the header's own contracts); each such definition says so in its
doc comment.  `BinnedData` operations are translated directly from
`likely/FitModel.cc`.

The numeric type is `ℚ`.  The engine's positive-definiteness detector is a
Cholesky decomposition that fails at the first nonpositive diagonal pivot;
over `ℚ` we realise it in the square-root-free LDLT form, whose pivots are
exactly the squares of the Cholesky diagonal, so the sign test (and hence
the failure behaviour) is identical while every intermediate value stays
rational.
-/

namespace likely

/-- Number of stored elements of an `n`-by-`n` symmetric matrix in the BLAS
packed format used throughout `CovarianceMatrix.h`: `n*(n+1)/2`. -/
def ncov (n : ℕ) : ℕ := n * (n + 1) / 2

/-- Packed-storage offset of element `(row, col)`.  The header documents the
layout as `m(i,j) = array[i + j*(j+1)/2]` for `i <= j`; for `i > j` the
symmetric element is used. -/
def packedIndex (row col : ℕ) : ℕ :=
  min row col + (max row col) * (max row col + 1) / 2

/-- Reads the `(row, col)` element of a packed symmetric matrix (0 outside). -/
def packedGet (v : List ℚ) (row col : ℕ) : ℚ := v.getD (packedIndex row col) 0

/-- Builds the packed column-major storage of the symmetric matrix whose
`(i, j)` element for `i ≤ j` is `f i j`: column `j` contributes the block
`[f 0 j, …, f j j]` starting at offset `j*(j+1)/2`. -/
def packedOfFun (n : ℕ) (f : ℕ → ℕ → ℚ) : List ℚ :=
  (List.range n).flatMap fun j => (List.range (j + 1)).map fun i => f i j

/-- Modelled from the spec: `CovarianceMatrix.cc` is absent from `src/`.
`symmetricMatrixIndex(row,col,size)` returns the packed array offset for the
requested element "or throws a RuntimeError for invalid row or col inputs"
(`CovarianceMatrix.h`). -/
def symmetricMatrixIndex (row col size : ℕ) : Except String ℕ :=
  if size ≤ row ∨ size ≤ col then
    Except.error "symmetricMatrixIndex: invalid row or col"
  else Except.ok (packedIndex row col)

/-- Modelled from the spec: `CovarianceMatrix.cc` is absent from `src/`.
Returns the matrix size `N > 0` whose packed element count `N(N+1)/2`
equals `nelem`, and fails when no such integer exists ("size is `N` such
that `N(N+1)/2` equals the vector length (fails if no such integer N
exists)", spec §6). -/
def symmetricMatrixSize (nelem : ℕ) : Except String ℕ :=
  match (List.range (nelem + 1)).find?
      (fun n => decide (0 < n ∧ n * (n + 1) = 2 * nelem)) with
  | some n => Except.ok n
  | none => Except.error "symmetricMatrixSize: invalid number of elements"

/-- Helper for the LDLT decomposition: the strict lower-triangular row `i`,
built left to right; entry `k` is `(a(i,k) − Σ_{m<k} l(i,m)·l(k,m)·d m)/d k`.
`prev` holds the rows and pivots already computed. -/
def choleskyRow (a : List ℚ) (prev : List (List ℚ × ℚ)) (i : ℕ) : List ℚ :=
  (List.range i).foldl
    (fun row k =>
      let s : ℚ := ∑ m ∈ Finset.range k,
        row.getD m 0 * (prev.getD k ([], 1)).1.getD m 0 * (prev.getD m ([], 1)).2
      row ++ [(packedGet a i k - s) / (prev.getD k ([], 1)).2])
    []

/-- Modelled from the spec: `CovarianceMatrix.cc` is absent from `src/`.
"Performs a Cholesky decomposition in place of a symmetric positive
definite matrix or throws a RuntimeError if the matrix is not positive
definite … Fails with a positive-definiteness error the first time a
computed diagonal pivot is ≤ 0" (spec §4.2).  Realised in the
square-root-free LDLT form: processing rows in order, row `i` yields the
unit-lower-triangular entries and the pivot
`d i = a(i,i) − Σ_{k<i} l(i,k)² · d k`, which is the square of the Cholesky
diagonal pivot, so the `pivot ≤ 0` test is exact over `ℚ` and fires at the
same first row as the floating-point kernel's. -/
def choleskyDecompose (a : List ℚ) (n : ℕ) : Except String (List (List ℚ × ℚ)) :=
  (List.range n).foldlM
    (fun prev i =>
      let row := choleskyRow a prev i
      let d : ℚ := packedGet a i i -
        ∑ k ∈ Finset.range i, row.getD k 0 * row.getD k 0 * (prev.getD k ([], 1)).2
      if d ≤ 0 then
        Except.error "choleskyDecompose: matrix is not positive definite"
      else Except.ok (prev ++ [(row, d)]))
    []

/-- Rows of the inverse of the unit lower-triangular LDLT factor, by forward
substitution: `w(i,i) = 1` and `w(i,k) = −Σ_{m∈[k,i)} l(i,m)·w(m,k)`. -/
def unitLowerInverse (rows : List (List ℚ × ℚ)) (n : ℕ) : List (List ℚ) :=
  (List.range n).foldl
    (fun acc i =>
      acc ++ [(List.range (i + 1)).map fun k =>
        if k = i then 1
        else -(∑ m ∈ Finset.Ico k i,
          (rows.getD i ([], 1)).1.getD m 0 * (acc.getD m []).getD k 0)])
    []

/-- Modelled from the spec: `CovarianceMatrix.cc` is absent from `src/`.
"Inverts a symmetric positive definite matrix in place … The input matrix
should already be Cholesky decomposed" (`CovarianceMatrix.h`).  From the
LDLT factors `A = L·D·Lᵀ` the inverse is `Wᵀ·D⁻¹·W` with `W = L⁻¹`, all of
it rational. -/
def invertCholesky (rows : List (List ℚ × ℚ)) (n : ℕ) : List ℚ :=
  let w := unitLowerInverse rows n
  packedOfFun n fun i j =>
    ∑ k ∈ Finset.Ico (max i j) n,
      (w.getD k []).getD i 0 * (w.getD k []).getD j 0 / (rows.getD k ([], 1)).2

/-- Decomposes and inverts a packed symmetric matrix, failing exactly when
the Cholesky positive-definiteness test fails. -/
def invertPacked (a : List ℚ) (n : ℕ) : Except String (List ℚ) :=
  (choleskyDecompose a n).map fun rows => invertCholesky rows n

/-- Modelled from the spec: the packed symmetric matrix–vector multiply of
`CovarianceMatrix.h` ("the input matrix is assumed to be in the BLAS packed
format").  The in-place kernel accumulates each off-diagonal element into
two output positions; functionally, output `i` is `Σ_j M(i,j)·v j` with
`M(i,j)` read through the symmetric packed lookup. -/
def symmetricMatrixMultiply (a v : List ℚ) (n : ℕ) : List ℚ :=
  (List.range n).map fun i => ∑ j ∈ Finset.range n, packedGet a i j * v.getD j 0

/-- Dot product of the first `n` entries of two vectors. -/
def dotProduct (a b : List ℚ) (n : ℕ) : ℚ :=
  ∑ i ∈ Finset.range n, a.getD i 0 * b.getD i 0

/-- The state of a `CovarianceMatrix` (spec §3): the fixed dimension, the
optional dense packed representations (`[]` = not allocated, mirroring the
`_cov`/`_icov` vectors), the compression flag, and the compact encoding of
the inverse covariance (`_diag`, `_offdiagIndex`, `_offdiagValue`).  The
`_cholesky` cache is not carried: its entries are irrational in general, so
the model recomputes the (rational LDLT) decomposition on demand; no
observable behaviour modelled here depends on that cache. -/
structure CovarianceMatrix where
  size : ℕ
  cov : List ℚ
  icov : List ℚ
  compressed : Bool
  diag : List ℚ
  offdiagIndex : List ℕ
  offdiagValue : List ℚ

/-- Packed offset of the diagonal element `(i, i)`. -/
def diagPackedIndex (i : ℕ) : ℕ := i + i * (i + 1) / 2

/-- The diagonal position (if any) that a packed offset `p` stands for, for
a matrix of size `n`. -/
def diagIndexOf (n p : ℕ) : Option ℕ :=
  (List.range n).find? fun i => diagPackedIndex i == p

/-- The nonzero off-diagonal inverse-covariance entries, as `(packed offset,
value)` pairs in offset order: the compact encoding records "only the
nonzero off-diagonal inverse-covariance entries" (spec §3). -/
def offdiagPairs (icov : List ℚ) (n : ℕ) : List (ℕ × ℚ) :=
  (List.range (ncov n)).filterMap fun p =>
    if (diagIndexOf n p).isNone ∧ icov.getD p 0 ≠ 0 then
      some (p, icov.getD p 0)
    else none

/-- Modelled from the spec (§4.3): the compression transform builds
`diagonal` (the `n` inverse-covariance diagonal values) and the parallel
`offDiagonalIndex`/`offDiagonalValue` sequences from the nonzero
off-diagonal entries. -/
def compressEncode (icov : List ℚ) (n : ℕ) : List ℚ × List ℕ × List ℚ :=
  ((List.range n).map fun i => icov.getD (diagPackedIndex i) 0,
   (offdiagPairs icov n).map Prod.fst,
   (offdiagPairs icov n).map Prod.snd)

/-- Element-wise read of the compact encoding at packed offset `p`: the
recorded diagonal value on a diagonal offset, the recorded off-diagonal
value when one was stored, and 0 otherwise. -/
def decodeAt (n : ℕ) (dg : List ℚ) (oi : List ℕ) (ov : List ℚ) (p : ℕ) : ℚ :=
  match diagIndexOf n p with
  | some i => dg.getD i 0
  | none => (((oi.zip ov).lookup p).getD 0)

/-- Modelled from the spec (§4.3): decompression reconstructs the dense
packed inverse covariance from the compact encoding; "the reconstruction
must be exact — it is the inverse mapping of compression". -/
def compressDecode (n : ℕ) (dg : List ℚ) (oi : List ℕ) (ov : List ℚ) : List ℚ :=
  (List.range (ncov n)).map fun p => decodeAt n dg oi ov p

/-- Modelled from the spec: `_uncompress` "undoes any compression. Returns
immediately if we are already uncompressed" (`CovarianceMatrix.h`).  The
compact encoding holds the inverse covariance, so decompression
reconstructs `_icov` and clears the compact vectors. -/
def CovarianceMatrix.uncompress (m : CovarianceMatrix) : CovarianceMatrix :=
  if m.compressed then
    { size := m.size, cov := [],
      icov := compressDecode m.size m.diag m.offdiagIndex m.offdiagValue,
      compressed := false, diag := [], offdiagIndex := [], offdiagValue := [] }
  else m

/-- Modelled from the spec: `_readsCov` "prepares to read elements of _cov
… Always uncompresses" (`CovarianceMatrix.h`); a stale covariance is
derived from the inverse covariance through the Cholesky/inversion kernels
(spec §4.1), and reading fails if no representation has ever been set. -/
def CovarianceMatrix.readsCov (m : CovarianceMatrix) : Except String (List ℚ) :=
  let u := m.uncompress
  if u.cov ≠ [] then Except.ok u.cov
  else if u.icov ≠ [] then invertPacked u.icov u.size
  else Except.error "CovarianceMatrix: no elements have been set"

/-- Modelled from the spec: `_readsICov`, symmetric to `readsCov`. -/
def CovarianceMatrix.readsICov (m : CovarianceMatrix) : Except String (List ℚ) :=
  let u := m.uncompress
  if u.icov ≠ [] then Except.ok u.icov
  else if u.cov ≠ [] then invertPacked u.cov u.size
  else Except.error "CovarianceMatrix: no elements have been set"

/-- Modelled from the spec: `_changesCov` prepares to change an element of
`_cov`: it uncompresses, derives the covariance if only the inverse is
current, and allocates a zero-filled packed vector on a fresh matrix. -/
def CovarianceMatrix.changesCov (m : CovarianceMatrix) : Except String (List ℚ) :=
  let u := m.uncompress
  if u.cov ≠ [] then Except.ok u.cov
  else if u.icov ≠ [] then invertPacked u.icov u.size
  else Except.ok (List.replicate (ncov u.size) 0)

/-- Modelled from the spec: `_changesICov`, symmetric to `changesCov`. -/
def CovarianceMatrix.changesICov (m : CovarianceMatrix) : Except String (List ℚ) :=
  let u := m.uncompress
  if u.icov ≠ [] then Except.ok u.icov
  else if u.cov ≠ [] then invertPacked u.cov u.size
  else Except.ok (List.replicate (ncov u.size) 0)

/-- Modelled from the spec: the packed-vector constructor "creates a new
covariance matrix initialized with the specified elements … The matrix size
will be inferred from the input vector size using `symmetricMatrixSize`"
(`CovarianceMatrix.h`). -/
def CovarianceMatrix.fromPacked (packed : List ℚ) : Except String CovarianceMatrix :=
  (symmetricMatrixSize packed.length).map fun n =>
    { size := n, cov := packed, icov := [], compressed := false,
      diag := [], offdiagIndex := [], offdiagValue := [] }

/-- Modelled from the spec: `getCovariance` reads one element, deriving the
dense covariance first if it is stale, "or throws a RuntimeError". -/
def CovarianceMatrix.getCovariance (m : CovarianceMatrix) (row col : ℕ) :
    Except String ℚ :=
  (symmetricMatrixIndex row col m.size).bind fun p =>
    m.readsCov.map fun v => v.getD p 0

/-- Modelled from the spec: `getInverseCovariance`, symmetric to
`getCovariance`. -/
def CovarianceMatrix.getInverseCovariance (m : CovarianceMatrix) (row col : ℕ) :
    Except String ℚ :=
  (symmetricMatrixIndex row col m.size).bind fun p =>
    m.readsICov.map fun v => v.getD p 0

/-- Modelled from the spec: `setCovariance` (§4.1): "row,col ∈ [0,size).
Writes `value` and the symmetric mirror element.  Diagonal elements
(row==col) must be > 0 — violating this fails immediately (cheap check, not
deferred).  Writing invalidates the non-written representation and the
Cholesky factor."  In packed storage the mirror element shares the written
slot.  The diagonal check precedes the (potentially failing, potentially
expensive) materialisation of the covariance representation. -/
def CovarianceMatrix.setCovariance (m : CovarianceMatrix) (row col : ℕ)
    (value : ℚ) : Except String CovarianceMatrix :=
  (symmetricMatrixIndex row col m.size).bind fun p =>
    if row = col ∧ value ≤ 0 then
      Except.error "setCovariance: diagonal elements must be positive"
    else
      m.changesCov.map fun v =>
        { size := m.size, cov := v.set p value, icov := [], compressed := false,
          diag := [], offdiagIndex := [], offdiagValue := [] }

/-- Modelled from the spec: `setInverseCovariance`, symmetric to
`setCovariance`. -/
def CovarianceMatrix.setInverseCovariance (m : CovarianceMatrix) (row col : ℕ)
    (value : ℚ) : Except String CovarianceMatrix :=
  (symmetricMatrixIndex row col m.size).bind fun p =>
    if row = col ∧ value ≤ 0 then
      Except.error "setInverseCovariance: diagonal elements must be positive"
    else
      m.changesICov.map fun v =>
        { size := m.size, cov := [], icov := v.set p value, compressed := false,
          diag := [], offdiagIndex := [], offdiagValue := [] }

/-- Modelled from the spec: `multiplyByCovariance` "multiplies the specified
vector by the covariance or throws a RuntimeError" (size mismatch fails,
spec §7). -/
def CovarianceMatrix.multiplyByCovariance (m : CovarianceMatrix) (v : List ℚ) :
    Except String (List ℚ) :=
  if v.length ≠ m.size then
    Except.error "multiplyByCovariance: vector has wrong size"
  else m.readsCov.map fun a => symmetricMatrixMultiply a v m.size

/-- Modelled from the spec: `multiplyByInverseCovariance`, symmetric to
`multiplyByCovariance`. -/
def CovarianceMatrix.multiplyByInverseCovariance (m : CovarianceMatrix)
    (v : List ℚ) : Except String (List ℚ) :=
  if v.length ≠ m.size then
    Except.error "multiplyByInverseCovariance: vector has wrong size"
  else m.readsICov.map fun a => symmetricMatrixMultiply a v m.size

/-- Modelled from the spec: `chiSquare(delta)` "returns `deltaᵗ·Cinv·delta`;
implemented as inverse-covariance multiply followed by dot product; fails
if `delta.size() != size`" (spec §4.2). -/
def CovarianceMatrix.chiSquare (m : CovarianceMatrix) (delta : List ℚ) :
    Except String ℚ :=
  if delta.length ≠ m.size then
    Except.error "chiSquare: delta has wrong size"
  else m.readsICov.map fun a =>
    dotProduct delta (symmetricMatrixMultiply a delta m.size) m.size

/-- Modelled from the spec: `getLogDeterminant` returns the log of the
determinant, computed from the Cholesky decomposition of the covariance;
the determinant is the product of the (LDLT) pivots.  The logarithm of a
rational is irrational, so the model returns the determinant itself, whose
natural log the C++ returns; the failure behaviour (no representation set,
or not positive definite) is identical. -/
def CovarianceMatrix.getLogDeterminant (m : CovarianceMatrix) :
    Except String ℚ :=
  m.readsCov.bind fun a =>
    (choleskyDecompose a m.size).map fun rows =>
      ∏ k ∈ Finset.range m.size, (rows.getD k ([], 1)).2

/-- A lower-triangular `n × n` matrix `L` (given as a function) with
`L·Lᵗ` equal to the packed symmetric matrix `a`: the Cholesky factor of
`a`.  The factor's entries are irrational in general, which is why
`sample` below receives it as data rather than computing it. -/
def IsCholeskyFactorOf (L : ℕ → ℕ → ℚ) (a : List ℚ) (n : ℕ) : Prop :=
  (∀ i < n, ∀ j < n, i < j → L i j = 0) ∧
  (∀ i < n, ∀ j < n, ∑ k ∈ Finset.range n, L i k * L j k = packedGet a i j)

/-- Multiplies the matrix `L` by the vector `z`, producing `n` outputs. -/
def lowerMatVec (L : ℕ → ℕ → ℚ) (z : List ℚ) (n : ℕ) : List ℚ :=
  (List.range n).map fun i => ∑ k ∈ Finset.range n, L i k * z.getD k 0

/-- Modelled from the spec: `sample(delta, rng)` "fills `delta` (size N)
with one draw from N(0, covariance) by generating N independent
standard-normal deviates `z` and computing `L·z` where L is the Cholesky
factor of covariance; returns `½ zᵗz` … *not* recomputed from the
transformed sample, it is the sum of squared pre-transform deviates divided
by two.  Requires a resolvable covariance; fails otherwise" (spec §4.5).
The deviate stream `z` (the generator's output) and the Cholesky factor `L`
(irrational over `ℚ`, see `IsCholeskyFactorOf`) are passed in; the
resolvability check is the exact LDLT pivot test on the covariance. -/
def CovarianceMatrix.sample (m : CovarianceMatrix) (L : ℕ → ℕ → ℚ)
    (z : List ℚ) : Except String (List ℚ × ℚ) :=
  m.readsCov.bind fun a =>
    (choleskyDecompose a m.size).map fun _ =>
      (lowerMatVec L z m.size,
       (∑ k ∈ Finset.range m.size, z.getD k 0 * z.getD k 0) / 2)

/-- Modelled from the spec: `compress()` (spec §4.3) is a no-op returning
false when already compressed; otherwise it inspects the current
inverse-covariance values (triggering decomposition/inversion if needed),
builds the compact encoding from the nonzero entries, keeps it only when it
is smaller than the dense packed storage, and returns whether compression
was performed. -/
def CovarianceMatrix.compress (m : CovarianceMatrix) :
    Except String (CovarianceMatrix × Bool) :=
  if m.compressed then Except.ok (m, false)
  else
    m.readsICov.map fun icov =>
      let e := compressEncode icov m.size
      if m.size + 2 * e.2.1.length < ncov m.size then
        ({ size := m.size, cov := [], icov := [], compressed := true,
           diag := e.1, offdiagIndex := e.2.1, offdiagValue := e.2.2 }, true)
      else (m, false)

/-- Returns whether this covariance matrix is currently compressed
(`CovarianceMatrix.h`, inline). -/
def CovarianceMatrix.isCompressed (m : CovarianceMatrix) : Bool := m.compressed

/-- Returns the fixed size of this covariance matrix
(`CovarianceMatrix.h`, inline). -/
def CovarianceMatrix.getSize (m : CovarianceMatrix) : ℕ := m.size

/-- Modelled from the spec: `addInverse(other, weight)` "adds each element
of the inverse of the specified CovarianceMatrix to our inverse elements,
using the specified weight (which must be positive …). If the other matrix
is compressed, this method will not uncompress it" (`CovarianceMatrix.h`):
a compressed `other` is read element-wise through its compact encoding
(`decodeAt`), a dense `other` through its resolved inverse covariance; in
either case only `this` is rebuilt. -/
def CovarianceMatrix.addInverse (t other : CovarianceMatrix) (weight : ℚ) :
    Except String CovarianceMatrix :=
  if t.size ≠ other.size then Except.error "addInverse: size mismatch"
  else if weight ≤ 0 then Except.error "addInverse: weight must be positive"
  else
    t.readsICov.bind fun tic =>
      (if other.compressed then
        Except.ok fun p =>
          decodeAt other.size other.diag other.offdiagIndex other.offdiagValue p
       else other.readsICov.map fun v p => v.getD p 0).map fun oic =>
        { size := t.size, cov := [],
          icov := (List.range (ncov t.size)).map fun p =>
            tic.getD p 0 + weight * oic p,
          compressed := false, diag := [], offdiagIndex := [], offdiagValue := [] }

/-- Modelled from the spec: `prune(keep)` (spec §4.4) removes rows/columns
not in the keep set (validated against `size`, failing if any is out of
range), producing a smaller dense uncompressed matrix whose representations
hold exactly the kept rows/columns of the original's.  `std::set` iterates
its keys in ascending order; `Finset.sort` supplies that enumeration. -/
def CovarianceMatrix.prune (m : CovarianceMatrix) (keep : Finset ℕ) :
    Except String CovarianceMatrix :=
  if ∀ k ∈ keep, k < m.size then
    let u := m.uncompress
    let ks := keep.sort (· ≤ ·)
    Except.ok
      { size := keep.card,
        cov := if u.cov = [] then [] else
          packedOfFun keep.card fun a b => packedGet u.cov (ks.getD a 0) (ks.getD b 0),
        icov := if u.icov = [] then [] else
          packedOfFun keep.card fun a b => packedGet u.icov (ks.getD a 0) (ks.getD b 0),
        compressed := false, diag := [], offdiagIndex := [], offdiagValue := [] }
  else Except.error "prune: keep index out of range"

/-- Structural well-formedness of a `CovarianceMatrix` state, as every
state reachable through the engine's operations satisfies it: positive
size (spec §3 invariant 1), allocated dense vectors of the packed length,
and exactly one of dense/compressed state active (spec §3 invariant 3),
with a compressed diagonal of length `size`. -/
def CovarianceMatrix.WellFormed (m : CovarianceMatrix) : Prop :=
  0 < m.size ∧
  (m.cov = [] ∨ m.cov.length = ncov m.size) ∧
  (m.icov = [] ∨ m.icov.length = ncov m.size) ∧
  (m.compressed = true → m.cov = [] ∧ m.icov = [] ∧ m.diag.length = m.size)

/-- The state of a `BinnedData` (from `likely/FitModel.cc`): the grid's
total bin count, the per-index offset table (`EMPTY_BIN` = `none`), the
list of global indices with data in assignment order, the data vector and
its cached alternate-format copy, the scalar weight that stands in for
`Cinv` when no covariance is attached, the weighted flag, the finalized
flag, and the optional covariance matrix. -/
structure BinnedData where
  nBinsTotal : ℕ
  offset : List (Option ℕ)
  index : List ℕ
  data : List ℚ
  dataCache : List ℚ
  weight : ℚ
  weighted : Bool
  finalized : Bool
  covariance : Option CovarianceMatrix

/-- `BinnedData::getNBinsWithData` is the number of occupied bins, the
length of `_index`. -/
def BinnedData.getNBinsWithData (b : BinnedData) : ℕ := b.index.length

/-- `BinnedData::hasCovariance`. -/
def BinnedData.hasCovariance (b : BinnedData) : Bool := b.covariance.isSome

/-- The data-vector transformation at the heart of `_setWeighted`
(`FitModel.cc` 260–280): with a covariance and occupied bins, multiply by
the (inverse) covariance; otherwise scale by `_weight` (or its reciprocal)
when it is not 1. -/
def BinnedData.applyWeightTransform (b : BinnedData) (weighted : Bool) :
    Except String (List ℚ) :=
  match b.covariance with
  | some C =>
      if 0 < b.index.length then
        if weighted then C.multiplyByInverseCovariance b.data
        else C.multiplyByCovariance b.data
      else if b.weight ≠ 1 then
        Except.ok (b.data.map fun x => if weighted then x * b.weight else x / b.weight)
      else Except.ok b.data
  | none =>
      if b.weight ≠ 1 then
        Except.ok (b.data.map fun x => if weighted then x * b.weight else x / b.weight)
      else Except.ok b.data

/-- `BinnedData::_setWeighted(weighted, flushCache)` (`FitModel.cc`
243–305): when the state already matches, nothing changes; when the
alternate format is cached, the cache and the data vector swap; otherwise
the data vector is transformed (saving the original to the cache unless it
is about to be flushed).  Finally the cache is flushed when requested. -/
def BinnedData.setWeightedState (b : BinnedData) (weighted flushCache : Bool) :
    Except String BinnedData :=
  (if weighted = b.weighted then Except.ok b
   else if 0 < b.dataCache.length then
     Except.ok { b with data := b.dataCache, dataCache := b.data,
                        weighted := weighted }
   else
     (b.applyWeightTransform weighted).map fun d =>
       { b with data := d,
                dataCache := if flushCache then b.dataCache else b.data,
                weighted := weighted }).map fun b1 =>
    if flushCache then { b1 with dataCache := [] } else b1

/-- `BinnedData::setData(index, value, weighted)` (`FitModel.cc` 351–367):
first brings the data vector to the requested format (flushing the cache),
then overwrites an occupied bin in place; an unoccupied bin becomes a new
entry only when no covariance matrix is attached and the object is not
finalized, else the call fails.  The index is validated by `hasData` via
`_grid.checkIndex`. -/
def BinnedData.setData (b : BinnedData) (idx : ℕ) (value : ℚ)
    (weighted : Bool) : Except String BinnedData :=
  (b.setWeightedState weighted true).bind fun b1 =>
    if b1.nBinsTotal ≤ idx then Except.error "checkIndex: invalid index"
    else match b1.offset.getD idx none with
    | some off => Except.ok { b1 with data := b1.data.set off value }
    | none =>
        if b1.covariance.isSome then
          Except.error "setData: cannot add data after covariance."
        else if b1.finalized then
          Except.error "setData: object is finalized."
        else Except.ok
          { b1 with offset := b1.offset.set idx (some b1.index.length),
                    index := b1.index ++ [idx],
                    data := b1.data ++ [value] }

/-- `BinnedData::setCovarianceMatrix(covariance)` (`FitModel.cc` 506–514):
fails on a finalized object and when the supplied matrix's size differs
from the number of bins with data. -/
def BinnedData.setCovarianceMatrix (b : BinnedData) (C : CovarianceMatrix) :
    Except String BinnedData :=
  if b.finalized then
    Except.error "setCovarianceMatrix: object is finalized."
  else if C.size ≠ b.index.length then
    Except.error "setCovarianceMatrix: new covariance has the wrong size."
  else Except.ok { b with covariance := some C }

/-- The data vector that `BinnedData::projectOntoModes` builds
(`FitModel.cc` 489–501): for each bin, the sum over the kept mode range
`[lo, hi)` of (mode ⋅ data) times the mode's component at that bin, the
mode `idx`'s components being `eigenvectors[idx*n + 0 … idx*n + n-1]`. -/
def modeProjected (dat evec : List ℚ) (n lo hi : ℕ) : List ℚ :=
  (List.range n).map fun bin =>
    ∑ idx ∈ Finset.Ico lo hi,
      (∑ bin2 ∈ Finset.range n, dat.getD bin2 0 * evec.getD (idx * n + bin2) 0)
        * evec.getD (idx * n + bin) 0

/-- `BinnedData::projectOntoModes(nkeep)` (`FitModel.cc` 461–504).  The
eigen decomposition itself comes from `CovarianceMatrix::getEigenModes`,
whose translation unit is absent from `src/`; modelled from the spec, its
output — `eigenvalues` ranked in ascending order with the matching
`eigenvectors` — is passed in as data.  The operation fails on a finalized
object, without a covariance, or when `nkeep = 0`, `nkeep ≥ size` or
`nkeep ≤ -size`; a positive `nkeep` projects onto modes `[0, nkeep)`, a
negative one onto `[size+nkeep, size)`, and the number of dropped modes is
returned. -/
def BinnedData.projectOntoModes (b : BinnedData)
    (eigenvalues eigenvectors : List ℚ) (nkeep : ℤ) :
    Except String (BinnedData × ℤ) :=
  if b.finalized then
    Except.error "projectOntoModes: object is finalized."
  else if b.covariance.isNone then
    Except.error "projectOntoModes: no covariance to define modes."
  else
    let size : ℤ := (b.index.length : ℤ)
    if nkeep = 0 ∨ size ≤ nkeep ∨ nkeep ≤ -size then
      Except.error "projectOntoModes: invalid value of nkeep."
    else
      let r : ℕ × ℕ × ℤ :=
        if 0 < nkeep then (0, nkeep.toNat, size - nkeep)
        else ((size + nkeep).toNat, b.index.length, size + nkeep)
      (b.setWeightedState false true).map fun b1 =>
        ({ b1 with data := modeProjected b1.data eigenvectors b.index.length r.1 r.2.1 },
         r.2.2)

/-- The invariant that claim C10 is about: an attached covariance matrix's
size equals the number of bins with data. -/
def BinnedData.CovSizeInv (b : BinnedData) : Prop :=
  ∀ C, b.covariance = some C → C.size = b.index.length

end likely
namespace likely

lemma getD_map_range {α : Type} [Inhabited α] (f : ℕ → α) {i n : ℕ} (h : i < n) (d : α) :
    ((List.range n).map f).getD i d = f i := by
  rw [List.getD_eq_getElem?_getD, List.getElem?_map, List.getElem?_range h]
  rfl

lemma ncov_succ (n : ℕ) : ncov (n + 1) = ncov n + (n + 1) := by
  show (n + 1) * (n + 2) / 2 = n * (n + 1) / 2 + (n + 1)
  have h : (n + 1) * (n + 2) = n * (n + 1) + (n + 1) * 2 := by ring
  rw [h, Nat.add_mul_div_right _ _ (by norm_num : 0 < 2)]

lemma ncov_pos {n : ℕ} (h : 0 < n) : 0 < ncov n := by
  cases n with
  | zero => omega
  | succ k => rw [ncov_succ]; omega

lemma ncov_mono {a b : ℕ} (h : a ≤ b) : ncov a ≤ ncov b :=
  Nat.div_le_div_right (Nat.mul_le_mul h (by omega))

lemma packedOfFun_length (n : ℕ) (f : ℕ → ℕ → ℚ) :
    (packedOfFun n f).length = ncov n := by
  induction n with
  | zero => rfl
  | succ k ih =>
      rw [packedOfFun, List.range_succ, List.flatMap_append, List.length_append]
      rw [packedOfFun] at ih
      simp [ih, ncov_succ]

lemma packedOfFun_getD (n : ℕ) (f : ℕ → ℕ → ℚ) {i j : ℕ}
    (hij : i ≤ j) (hj : j < n) :
    (packedOfFun n f).getD (i + j * (j + 1) / 2) 0 = f i j := by
  induction n with
  | zero => omega
  | succ k ih =>
      have hlenk :
          ((List.range k).flatMap fun j2 =>
            (List.range (j2 + 1)).map fun i2 => f i2 j2).length = ncov k := by
        have h := packedOfFun_length k f
        rwa [packedOfFun] at h
      rw [packedOfFun, List.range_succ, List.flatMap_append]
      rcases Nat.lt_or_ge j k with hk | hk
      · have hbound : i + j * (j + 1) / 2 < ncov k := by
          have h1 : ncov (j + 1) ≤ ncov k := ncov_mono hk
          have h2 : ncov (j + 1) = ncov j + (j + 1) := ncov_succ j
          show i + ncov j < ncov k
          omega
        rw [List.getD_append _ _ _ _ (by rw [hlenk]; exact hbound)]
        have h := ih hk
        rwa [packedOfFun] at h
      · have hjk : j = k := by omega
        subst hjk
        have hidx : i + j * (j + 1) / 2 =
            ((List.range j).flatMap fun j2 =>
              (List.range (j2 + 1)).map fun i2 => f i2 j2).length + i := by
          rw [hlenk]; show i + ncov j = ncov j + i; omega
        rw [hidx, List.getD_append_right _ _ _ _ (by omega)]
        simp only [Nat.add_sub_cancel_left, List.flatMap_cons, List.flatMap_nil,
          List.append_nil]
        exact getD_map_range _ (by omega : i < j + 1) 0

lemma packedGet_symm (v : List ℚ) (i j : ℕ) : packedGet v i j = packedGet v j i := by
  unfold packedGet packedIndex
  rw [min_comm, max_comm]

lemma packedGet_packedOfFun (n : ℕ) (f : ℕ → ℕ → ℚ) {a b : ℕ}
    (ha : a < n) (hb : b < n) :
    packedGet (packedOfFun n f) a b = f (min a b) (max a b) := by
  unfold packedGet packedIndex
  exact packedOfFun_getD n f (min_le_max) (by omega : max a b < n)

end likely

namespace likely

lemma diagPackedIndex_strictMono : StrictMono diagPackedIndex := by
  intro a b h
  unfold diagPackedIndex
  have hd : a * (a + 1) / 2 ≤ b * (b + 1) / 2 :=
    Nat.div_le_div_right (Nat.mul_le_mul (by omega) (by omega))
  omega

lemma diagIndexOf_eq_some {n p i : ℕ} :
    diagIndexOf n p = some i ↔ i < n ∧ diagPackedIndex i = p := by
  constructor
  · intro h
    have hm := List.mem_of_find?_eq_some h
    have hp := List.find?_some h
    refine ⟨List.mem_range.mp hm, by simpa using hp⟩
  · rintro ⟨hin, hip⟩
    have hs : ((List.range n).find? fun i2 => diagPackedIndex i2 == p).isSome :=
      List.find?_isSome.mpr ⟨i, List.mem_range.mpr hin, by simpa using hip⟩
    obtain ⟨y, hy⟩ := Option.isSome_iff_exists.mp hs
    have hyp : diagPackedIndex y = p := by simpa using List.find?_some hy
    have : y = i := diagPackedIndex_strictMono.injective (by rw [hyp, hip])
    rw [diagIndexOf, hy, this]

lemma lookup_filterMap_none {P : ℕ → Prop} [DecidablePred P] (f : ℕ → ℚ)
    (l : List ℕ) (p : ℕ) (hp : p ∉ l) :
    (l.filterMap fun q => if P q then some (q, f q) else none).lookup p = none := by
  induction l with
  | nil => rfl
  | cons a t ih =>
      have hpa : p ≠ a := by intro h; exact hp (by simp [h])
      have hpt : p ∉ t := fun h => hp (List.mem_cons_of_mem _ h)
      simp only [List.filterMap_cons]
      by_cases hPa : P a
      · rw [if_pos hPa]
        simp [List.lookup, beq_eq_false_iff_ne.mpr hpa, ih hpt]
      · rw [if_neg hPa]; exact ih hpt

lemma lookup_filterMap {P : ℕ → Prop} [DecidablePred P] (f : ℕ → ℚ)
    (l : List ℕ) (hnd : l.Nodup) (p : ℕ) (hp : p ∈ l) :
    (l.filterMap fun q => if P q then some (q, f q) else none).lookup p =
      if P p then some (f p) else none := by
  induction l with
  | nil => cases hp
  | cons a t ih =>
      rcases List.mem_cons.mp hp with rfl | hpt
      · have hpt : p ∉ t := (List.nodup_cons.mp hnd).1
        simp only [List.filterMap_cons]
        by_cases hPa : P p
        · rw [if_pos hPa, if_pos hPa]
          simp [List.lookup]
        · rw [if_neg hPa, if_neg hPa]
          exact lookup_filterMap_none f t p hpt
      · have hna : p ≠ a := by
          rintro rfl; exact (List.nodup_cons.mp hnd).1 hpt
        simp only [List.filterMap_cons]
        have ht := ih (List.nodup_cons.mp hnd).2 hpt
        by_cases hPa : P a
        · rw [if_pos hPa]
          simpa [List.lookup, beq_eq_false_iff_ne.mpr hna] using ht
        · rw [if_neg hPa]; exact ht

lemma zip_map_fst_snd {α β : Type} (l : List (α × β)) :
    (l.map Prod.fst).zip (l.map Prod.snd) = l := by
  induction l with
  | nil => rfl
  | cons a t ih => simp [List.zip, ih]

lemma decodeAt_compressEncode (icov : List ℚ) (n : ℕ)
    {p : ℕ} (hp : p < ncov n) :
    decodeAt n (compressEncode icov n).1 (compressEncode icov n).2.1
      (compressEncode icov n).2.2 p = icov.getD p 0 := by
  unfold decodeAt compressEncode
  cases hdi : diagIndexOf n p with
  | some i =>
      obtain ⟨hin, hip⟩ := diagIndexOf_eq_some.mp hdi
      simp only
      rw [getD_map_range _ hin, hip]
  | none =>
      simp only
      rw [zip_map_fst_snd]
      unfold offdiagPairs
      rw [lookup_filterMap _ _ (List.nodup_range _) p (List.mem_range.mpr hp)]
      by_cases hz : icov.getD p 0 = 0
      · rw [if_neg (fun h => h.2 hz)]
        simp only [Option.getD_none]
        exact hz.symm
      · rw [if_pos ⟨by simp [hdi], hz⟩]
        rfl

lemma compressDecode_compressEncode (icov : List ℚ) (n : ℕ)
    (hlen : icov.length = ncov n) :
    compressDecode n (compressEncode icov n).1 (compressEncode icov n).2.1
      (compressEncode icov n).2.2 = icov := by
  unfold compressDecode
  apply List.ext_getElem
  · simp [hlen]
  · intro p h1 h2
    have hp : p < ncov n := by simpa using h1
    rw [List.getElem_map, List.getElem_range]
    rw [decodeAt_compressEncode icov n hp]
    rw [List.getD_eq_getElem?_getD, List.getElem?_eq_getElem h2]
    rfl

lemma compressDecode_length (n : ℕ) (dg : List ℚ) (oi : List ℕ) (ov : List ℚ) :
    (compressDecode n dg oi ov).length = ncov n := by
  simp [compressDecode]

end likely

namespace likely

lemma uncompress_eq_self {m : CovarianceMatrix} (h : m.compressed = false) :
    m.uncompress = m := by
  simp [CovarianceMatrix.uncompress, h]

lemma uncompress_of_compressed {m : CovarianceMatrix} (h : m.compressed = true) :
    m.uncompress =
      { size := m.size, cov := [],
        icov := compressDecode m.size m.diag m.offdiagIndex m.offdiagValue,
        compressed := false, diag := [], offdiagIndex := [], offdiagValue := [] } := by
  simp [CovarianceMatrix.uncompress, h]

lemma compressDecode_ne_nil {n : ℕ} (hn : 0 < n) (dg : List ℚ) (oi : List ℕ)
    (ov : List ℚ) : compressDecode n dg oi ov ≠ [] := by
  intro he
  have hlen := compressDecode_length n dg oi ov
  rw [he] at hlen
  have := ncov_pos hn
  simp at hlen
  omega

lemma readsICov_of_compressed {m : CovarianceMatrix} (h : m.compressed = true)
    (hsz : 0 < m.size) :
    m.readsICov =
      Except.ok (compressDecode m.size m.diag m.offdiagIndex m.offdiagValue) := by
  simp [CovarianceMatrix.readsICov, uncompress_of_compressed h,
    compressDecode_ne_nil hsz]

lemma readsICov_length {m : CovarianceMatrix} (hwf : m.WellFormed) {v : List ℚ}
    (h : m.readsICov = Except.ok v) : v.length = ncov m.size := by
  cases hmc : m.compressed with
  | false =>
      by_cases hi : m.icov = []
      · by_cases hcv : m.cov = []
        · simp [CovarianceMatrix.readsICov, uncompress_eq_self hmc, hi, hcv] at h
        · simp only [CovarianceMatrix.readsICov, uncompress_eq_self hmc, hi, hcv,
            ne_eq, not_true_eq_false, if_false, not_false_eq_true, if_true] at h
          rw [invertPacked] at h
          cases hch : choleskyDecompose m.cov m.size with
          | error e => rw [hch] at h; simp [Except.map] at h
          | ok rows =>
              rw [hch] at h
              simp only [Except.map] at h
              injection h with h
              rw [← h]
              simp [invertCholesky, packedOfFun_length]
      · simp [CovarianceMatrix.readsICov, uncompress_eq_self hmc, hi] at h
        rcases hwf.2.2.1 with h0 | hlen
        · exact absurd h0 hi
        · rw [← h]; exact hlen
  | true =>
      rw [readsICov_of_compressed hmc hwf.1] at h
      injection h with h
      rw [← h, compressDecode_length]

end likely

namespace likely

/-- Test fixture: a 2×2 matrix whose inverse covariance diag(1,2) is the
current representation. -/
def mDiag2 : CovarianceMatrix :=
  { size := 2, cov := [], icov := [1, 0, 2], compressed := false,
    diag := [], offdiagIndex := [], offdiagValue := [] }

/-- Test fixture: the compressed form that `mDiag2.compress` produces. -/
def mDiag2c : CovarianceMatrix :=
  { size := 2, cov := [], icov := [], compressed := true,
    diag := [1, 2], offdiagIndex := [], offdiagValue := [] }

/-- Element read of a compressed matrix: the index check, the implicit
decompression and the packed lookup, in one equation. -/
lemma getInverseCovariance_of_compressed {m : CovarianceMatrix}
    (h : m.compressed = true) (hsz : 0 < m.size) {row col : ℕ}
    (hrow : row < m.size) (hcol : col < m.size) :
    m.getInverseCovariance row col =
      Except.ok ((compressDecode m.size m.diag m.offdiagIndex
        m.offdiagValue).getD (packedIndex row col) 0) := by
  rw [CovarianceMatrix.getInverseCovariance, symmetricMatrixIndex,
    if_neg (by omega)]
  rw [readsICov_of_compressed h hsz]
  rfl

/-- Claim C1: for every covariance matrix on which `compress()` returns
true, any subsequent read yields inverse-covariance values identical to
the values held immediately before compression (here `pre`, the inverse
covariance the engine resolved while compressing); decompression rebuilds
the packed inverse covariance exactly, so compression followed by
decompression is a lossless round trip. -/
theorem claim_C1 (m m2 : CovarianceMatrix) (pre : List ℚ)
    (hwf : m.WellFormed)
    (hpre : m.readsICov = Except.ok pre)
    (hc : m.compress = Except.ok (m2, true)) :
    m2.isCompressed = true ∧
    m2.uncompress.icov = pre ∧
    (∀ row col, row < m.size → col < m.size →
      m2.getInverseCovariance row col = Except.ok (packedGet pre row col)) := by
  have hlen : pre.length = ncov m.size := readsICov_length hwf hpre
  cases hmc : m.compressed with
  | true =>
      rw [CovarianceMatrix.compress, if_pos (by simp [hmc])] at hc
      injection hc with hc
      exact absurd (congrArg Prod.snd hc) (by simp)
  | false =>
      rw [CovarianceMatrix.compress, if_neg (by simp [hmc]), hpre] at hc
      simp only [Except.map] at hc
      injection hc with hc
      by_cases hsmall :
          m.size + 2 * (compressEncode pre m.size).2.1.length < ncov m.size
      · rw [if_pos hsmall] at hc
        have hm2 : m2 =
            { size := m.size, cov := [], icov := [], compressed := true,
              diag := (compressEncode pre m.size).1,
              offdiagIndex := (compressEncode pre m.size).2.1,
              offdiagValue := (compressEncode pre m.size).2.2 } :=
          (congrArg Prod.fst hc).symm
        have hround :
            compressDecode m.size (compressEncode pre m.size).1
              (compressEncode pre m.size).2.1 (compressEncode pre m.size).2.2 = pre :=
          compressDecode_compressEncode pre m.size hlen
        have hcomp : m2.compressed = true := by rw [hm2]
        have hsize2 : m2.size = m.size := by rw [hm2]
        have hsz2 : 0 < m2.size := by rw [hsize2]; exact hwf.1
        have hdec : compressDecode m2.size m2.diag m2.offdiagIndex
            m2.offdiagValue = pre := by rw [hm2]; exact hround
        refine ⟨hcomp, ?_, ?_⟩
        · rw [uncompress_of_compressed hcomp]
          exact hdec
        · intro row col hrow hcol
          rw [getInverseCovariance_of_compressed hcomp hsz2
            (by rw [hsize2]; exact hrow) (by rw [hsize2]; exact hcol)]
          rw [hdec]
          rfl
      · rw [if_neg hsmall] at hc
        exact absurd (congrArg Prod.snd hc) (by simp)

/-- Witness for C1: compressing the concrete `mDiag2` succeeds, and both
the decompressed inverse-covariance vector and an element read through
`getInverseCovariance` reproduce the pre-compression values exactly. -/
theorem claim_C1_witness :
    mDiag2c.uncompress.icov = [1, 0, 2] ∧
    mDiag2c.getInverseCovariance 1 1 = Except.ok 2 := by
  have hwf : mDiag2.WellFormed := by
    refine ⟨by norm_num [mDiag2], Or.inl rfl,
      Or.inr (by norm_num [mDiag2, ncov]), ?_⟩
    intro h
    simp [mDiag2] at h
  have hpre : mDiag2.readsICov = Except.ok [1, 0, 2] := rfl
  have hc : mDiag2.compress = Except.ok (mDiag2c, true) := rfl
  have h := claim_C1 mDiag2 mDiag2c [1, 0, 2] hwf hpre hc
  refine ⟨h.2.1, ?_⟩
  have h2 := h.2.2 1 1 (by norm_num [mDiag2]) (by norm_num [mDiag2])
  simpa [packedGet, packedIndex] using h2

end likely

namespace likely

/-- Test fixture: the matrix constructed from the packed vector `{1,2,1}`
(cov = [[1,2],[2,1]], determinant −3), which is not positive definite. -/
def m121 : CovarianceMatrix :=
  { size := 2, cov := [1, 2, 1], icov := [], compressed := false,
    diag := [], offdiagIndex := [], offdiagValue := [] }

/-- Claim C2: the Cholesky decomposition fails with the
positive-definiteness error at the first nonpositive pivot (for `{1,2,1}`
the second pivot is `1 − 2²/1 = −3`), and every operation that requires it
— `getInverseCovariance`, `chiSquare`, `sample`, `getLogDeterminant` —
fails on the matrix constructed from `{1,2,1}`, never returning a usable
result; the errors that reach the caller on in-range inputs are exactly
the detector's. -/
theorem claim_C2 :
    CovarianceMatrix.fromPacked [1, 2, 1] = Except.ok m121 ∧
    choleskyDecompose [1, 2, 1] 2 =
      Except.error "choleskyDecompose: matrix is not positive definite" ∧
    (∀ row col, (m121.getInverseCovariance row col).isOk = false) ∧
    m121.getInverseCovariance 0 0 =
      Except.error "choleskyDecompose: matrix is not positive definite" ∧
    (∀ delta, (m121.chiSquare delta).isOk = false) ∧
    m121.chiSquare [1, 1] =
      Except.error "choleskyDecompose: matrix is not positive definite" ∧
    (∀ L z, (m121.sample L z).isOk = false) ∧
    (m121.getLogDeterminant).isOk = false := by
  have hch : choleskyDecompose [1, 2, 1] 2 =
      Except.error "choleskyDecompose: matrix is not positive definite" := by
    norm_num [choleskyDecompose, choleskyRow, List.range_succ, List.foldlM,
      List.foldl, Finset.sum_range_succ, Finset.sum_range_zero, packedGet,
      packedIndex, Bind.bind, Except.bind]
  have hri : m121.readsICov =
      Except.error "choleskyDecompose: matrix is not positive definite" := by
    simp [CovarianceMatrix.readsICov, CovarianceMatrix.uncompress, m121,
      invertPacked, hch, Except.map]
  have hrc : m121.readsCov = Except.ok [1, 2, 1] := rfl
  refine ⟨rfl, hch, ?_, ?_, ?_, ?_, ?_, ?_⟩
  · intro row col
    rw [CovarianceMatrix.getInverseCovariance, symmetricMatrixIndex]
    by_cases h : m121.size ≤ row ∨ m121.size ≤ col
    · rw [if_pos h]; rfl
    · rw [if_neg h]
      simp only [Except.bind]
      rw [hri]
      rfl
  · rw [CovarianceMatrix.getInverseCovariance, symmetricMatrixIndex,
      if_neg (by norm_num [m121])]
    simp only [Except.bind]
    rw [hri]
    rfl
  · intro delta
    rw [CovarianceMatrix.chiSquare]
    by_cases h : delta.length ≠ m121.size
    · rw [if_pos h]; rfl
    · rw [if_neg h, hri]
      rfl
  · rw [CovarianceMatrix.chiSquare, if_neg (by norm_num [m121]), hri]
    rfl
  · intro L z
    rw [CovarianceMatrix.sample, hrc]
    simp only [Except.bind, m121]
    rw [hch]
    rfl
  · rw [CovarianceMatrix.getLogDeterminant, hrc]
    simp only [Except.bind, m121]
    rw [hch]
    rfl

end likely

namespace likely

/-- Test fixture: a fresh 2×2 matrix with no elements set. -/
def mEmpty2 : CovarianceMatrix :=
  { size := 2, cov := [], icov := [], compressed := false,
    diag := [], offdiagIndex := [], offdiagValue := [] }

/-- Claim C3: for every in-range diagonal position and every value ≤ 0,
`setCovariance` and `setInverseCovariance` fail immediately with the
diagonal-positivity error — the error returned is that check's for any
matrix state, so the check fires before the (potentially failing,
potentially expensive) materialisation of the representation, and no write
is performed: the failing call returns no new state, leaving the caller's
matrix exactly as it was. -/
theorem claim_C3 (m : CovarianceMatrix) (row : ℕ) (value : ℚ)
    (hrow : row < m.size) (hv : value ≤ 0) :
    m.setCovariance row row value =
      Except.error "setCovariance: diagonal elements must be positive" ∧
    m.setInverseCovariance row row value =
      Except.error "setInverseCovariance: diagonal elements must be positive" := by
  constructor
  · rw [CovarianceMatrix.setCovariance, symmetricMatrixIndex, if_neg (by omega)]
    simp only [Except.bind]
    rw [if_pos (by simp [hv])]
  · rw [CovarianceMatrix.setInverseCovariance, symmetricMatrixIndex,
      if_neg (by omega)]
    simp only [Except.bind]
    rw [if_pos (by simp [hv])]

/-- Witness for C3: on the fresh 2×2 matrix, setting diagonal element
(0,0) to −1 fails with the diagonal-positivity error through both
setters. -/
theorem claim_C3_witness :
    mEmpty2.setCovariance 0 0 (-1) =
      Except.error "setCovariance: diagonal elements must be positive" ∧
    mEmpty2.setInverseCovariance 0 0 (-1) =
      Except.error "setInverseCovariance: diagonal elements must be positive" :=
  claim_C3 mEmpty2 0 (-1) (by norm_num [mEmpty2]) (by norm_num)

/-- The mathematical quadratic form `Σᵢ Σⱼ δᵢ · Cinv(i,j) · δⱼ`, written
independently of the engine's multiply-then-dot implementation; the spec's
"deltaᵗ·Cinv·delta computed independently via dense matrix–vector
multiply" (§8). -/
def quadraticForm (a delta : List ℚ) (n : ℕ) : ℚ :=
  ∑ i ∈ Finset.range n, ∑ j ∈ Finset.range n,
    delta.getD i 0 * packedGet a i j * delta.getD j 0

/-- Claim C5: with a resolvable inverse covariance, `chiSquare(delta)` for
a length-matching `delta` returns exactly the quadratic form
`deltaᵗ·Cinv·delta` (the multiply-then-dot implementation equals the
independent double sum), and for any other length it fails. -/
theorem claim_C5 (m : CovarianceMatrix) (icov delta : List ℚ)
    (h : m.readsICov = Except.ok icov) :
    (delta.length = m.size →
      m.chiSquare delta = Except.ok (quadraticForm icov delta m.size)) ∧
    (delta.length ≠ m.size →
      m.chiSquare delta = Except.error "chiSquare: delta has wrong size") := by
  constructor
  · intro hlen
    rw [CovarianceMatrix.chiSquare, if_neg (by simp [hlen]), h]
    simp only [Except.map, Except.ok.injEq]
    unfold dotProduct quadraticForm
    apply Finset.sum_congr rfl
    intro i hi
    rw [symmetricMatrixMultiply]
    rw [getD_map_range _ (List.mem_range.mp hi)]
    rw [Finset.mul_sum]
    apply Finset.sum_congr rfl
    intro j hj
    ring
  · intro hne
    rw [CovarianceMatrix.chiSquare, if_pos hne]

/-- Witness for C5: on the 2×2 matrix with inverse covariance diag(1,2),
`chiSquare [1,1]` equals the independent quadratic form (both are 3), and
a length-1 `delta` fails. -/
theorem claim_C5_witness :
    mDiag2.chiSquare [1, 1] = Except.ok (quadraticForm [1, 0, 2] [1, 1] 2) ∧
    mDiag2.chiSquare [1] = Except.error "chiSquare: delta has wrong size" :=
  ⟨(claim_C5 mDiag2 [1, 0, 2] [1, 1] rfl).1 (by norm_num [mDiag2]),
   (claim_C5 mDiag2 [1, 0, 2] [1] rfl).2 (by norm_num [mDiag2])⟩

end likely

namespace likely

lemma triangular_strictMono : StrictMono (fun n : ℕ => n * (n + 1)) := by
  intro a b h
  simp only
  exact Nat.mul_lt_mul_of_lt_of_le h (by omega) (by omega)

/-- Claim C7: construction from a packed element vector succeeds exactly
when a positive integer `N` with `N(N+1)/2` equal to the vector length
exists, in which case the matrix has size `N`; equivalently
`symmetricMatrixSize nelem` returns the unique such `N` or fails.  (The
packed count equation is stated multiplied out, `N(N+1) = 2·nelem`, to
avoid natural division.) -/
theorem claim_C7 :
    (∀ nelem N : ℕ, symmetricMatrixSize nelem = Except.ok N ↔
      (0 < N ∧ N * (N + 1) = 2 * nelem)) ∧
    (∀ (packed : List ℚ) (N : ℕ),
      (∃ m, CovarianceMatrix.fromPacked packed = Except.ok m ∧ m.size = N) ↔
        (0 < N ∧ N * (N + 1) = 2 * packed.length)) := by
  have hiff : ∀ nelem N : ℕ, symmetricMatrixSize nelem = Except.ok N ↔
      (0 < N ∧ N * (N + 1) = 2 * nelem) := by
    intro nelem N
    constructor
    · intro h
      rw [symmetricMatrixSize] at h
      cases hf : (List.range (nelem + 1)).find?
          (fun n => decide (0 < n ∧ n * (n + 1) = 2 * nelem)) with
      | none => rw [hf] at h; cases h
      | some n =>
          rw [hf] at h
          injection h with h
          subst h
          simpa using List.find?_some hf
    · rintro ⟨hN, heq⟩
      have hle : 2 * N ≤ N * (N + 1) := by nlinarith
      have hmem : N ∈ List.range (nelem + 1) := List.mem_range.mpr (by omega)
      have hsome : ((List.range (nelem + 1)).find?
          (fun n => decide (0 < n ∧ n * (n + 1) = 2 * nelem))).isSome :=
        List.find?_isSome.mpr ⟨N, hmem, by simp [hN, heq]⟩
      obtain ⟨y, hy⟩ := Option.isSome_iff_exists.mp hsome
      have hyP : 0 < y ∧ y * (y + 1) = 2 * nelem := by
        simpa using List.find?_some hy
      have hyN : y = N :=
        triangular_strictMono.injective (by rw [hyP.2, heq])
      rw [symmetricMatrixSize, hy, hyN]
  refine ⟨hiff, ?_⟩
  intro packed N
  constructor
  · rintro ⟨m, hm, rfl⟩
    rw [CovarianceMatrix.fromPacked] at hm
    cases hs : symmetricMatrixSize packed.length with
    | error e => rw [hs] at hm; cases hm
    | ok n =>
        rw [hs] at hm
        simp only [Except.map] at hm
        injection hm with hm
        have hn := (hiff packed.length n).mp hs
        rw [← hm]
        simpa using hn
  · rintro ⟨hN, heq⟩
    have hs : symmetricMatrixSize packed.length = Except.ok N :=
      (hiff packed.length N).mpr ⟨hN, heq⟩
    refine ⟨_, by rw [CovarianceMatrix.fromPacked, hs]; rfl, rfl⟩

end likely

namespace likely

/-- Test fixture: a 2×2 matrix with covariance diag(1,4) current, whose
Cholesky factor is the rational diag(1,2). -/
def mCov2 : CovarianceMatrix :=
  { size := 2, cov := [1, 0, 4], icov := [], compressed := false,
    diag := [], offdiagIndex := [], offdiagValue := [] }

/-- Test fixture: the Cholesky factor diag(1,2) of `mCov2`'s covariance. -/
def mL2 : ℕ → ℕ → ℚ := fun i j =>
  if i = 0 ∧ j = 0 then 1 else if i = 1 ∧ j = 1 then 2 else 0

/-- Claim C6: with a resolvable positive-definite covariance, `sample`
fills the output vector with `L·z` (`L` the Cholesky factor of the
covariance, `z` the stream of standard-normal deviates the generator
produced) and returns `½ zᵗz` computed from the pre-transform deviates —
the returned scalar is the same whatever transform is applied, so it is
not recomputed from the transformed sample; when the covariance does not
resolve or fails the positive-definiteness test, `sample` fails. -/
theorem claim_C6 (m : CovarianceMatrix) (a : List ℚ) (L : ℕ → ℕ → ℚ)
    (z : List ℚ)
    (ha : m.readsCov = Except.ok a)
    (hch : (choleskyDecompose a m.size).isOk = true)
    (hL : IsCholeskyFactorOf L a m.size) :
    m.sample L z = Except.ok (lowerMatVec L z m.size,
      (∑ k ∈ Finset.range m.size, z.getD k 0 * z.getD k 0) / 2) ∧
    (∀ (L2 : ℕ → ℕ → ℚ) (d : List ℚ) (r : ℚ),
      m.sample L2 z = Except.ok (d, r) →
      r = (∑ k ∈ Finset.range m.size, z.getD k 0 * z.getD k 0) / 2) ∧
    (∀ (m2 : CovarianceMatrix) (L3 : ℕ → ℕ → ℚ) (z3 : List ℚ),
      (m2.readsCov.bind fun a2 => choleskyDecompose a2 m2.size).isOk = false →
      (m2.sample L3 z3).isOk = false) := by
  refine ⟨?_, ?_, ?_⟩
  · rw [CovarianceMatrix.sample, ha]
    simp only [Except.bind]
    cases hc2 : choleskyDecompose a m.size with
    | error e => rw [hc2] at hch; cases hch
    | ok rows => rfl
  · intro L2 d r h
    rw [CovarianceMatrix.sample, ha] at h
    simp only [Except.bind] at h
    cases hc2 : choleskyDecompose a m.size with
    | error e => rw [hc2] at h; cases h
    | ok rows =>
        rw [hc2] at h
        simp only [Except.map] at h
        injection h with h
        exact (congrArg Prod.snd h).symm
  · intro m2 L3 z3 hbad
    rw [CovarianceMatrix.sample]
    cases hrc : m2.readsCov with
    | error e => rfl
    | ok a2 =>
        rw [hrc] at hbad
        simp only [Except.bind] at hbad ⊢
        cases hc3 : choleskyDecompose a2 m2.size with
        | error e => rfl
        | ok rows => rw [hc3] at hbad; cases hbad

/-- Witness for C6: sampling `mCov2` with deviates `z = [3,5]` produces
`L·z = [3,10]` and the scalar `(3² + 5²)/2 = 17` computed from `z`. -/
theorem claim_C6_witness :
    mCov2.sample mL2 [3, 5] = Except.ok ([3, 10], 17) := by
  have hch : (choleskyDecompose [1, 0, 4] 2).isOk = true := by
    norm_num [choleskyDecompose, choleskyRow, List.range_succ, List.foldlM,
      List.foldl, Finset.sum_range_succ, Finset.sum_range_zero, packedGet,
      packedIndex, Bind.bind, Except.bind, Except.isOk, Except.toBool,
      Pure.pure, Except.pure]
  have hL : IsCholeskyFactorOf mL2 [1, 0, 4] 2 := by
    constructor
    · intro i hi j hj hij
      interval_cases i <;> interval_cases j <;> norm_num [mL2]
    · intro i hi j hj
      interval_cases i <;> interval_cases j <;>
        norm_num [mL2, packedGet, packedIndex, Finset.sum_range_succ]
  have h := (claim_C6 mCov2 [1, 0, 4] mL2 [3, 5] rfl hch hL).1
  rw [h]
  norm_num [lowerMatVec, mL2, mCov2, Finset.sum_range_succ, List.range_succ]

end likely

namespace likely

/-- Claim C9: `addInverse(other, weight)` with matching sizes and a
positive weight adds `weight ×` each inverse-covariance element of `other`
into this matrix's inverse covariance, element-wise; and for the
compressed form `o2` of `other`, the accumulation reads the entries
directly from the compact encoding (never decompressing `o2`, which is
taken by const reference and left untouched) and obtains exactly `other`'s
pre-compression inverse-covariance values. -/
theorem claim_C9 (t other o2 : CovarianceMatrix) (tic oic : List ℚ) (w : ℚ)
    (hsz : t.size = other.size) (hw : 0 < w)
    (htic : t.readsICov = Except.ok tic)
    (hoic : other.readsICov = Except.ok oic)
    (hc : other.compress = Except.ok (o2, true)) :
    o2.isCompressed = true ∧
    (∃ t1, t.addInverse other w = Except.ok t1 ∧
      ∀ p, p < ncov t.size →
        t1.icov.getD p 0 = tic.getD p 0 + w * oic.getD p 0) ∧
    (∃ t2, t.addInverse o2 w = Except.ok t2 ∧
      ∀ p, p < ncov t.size →
        t2.icov.getD p 0 = tic.getD p 0 + w * oic.getD p 0) := by
  have hnc : other.compressed = false := by
    cases hmc : other.compressed with
    | false => rfl
    | true =>
        rw [CovarianceMatrix.compress, if_pos (by simp [hmc])] at hc
        injection hc with hc
        exact absurd (congrArg Prod.snd hc) (by simp)
  rw [CovarianceMatrix.compress, if_neg (by simp [hnc]), hoic] at hc
  simp only [Except.map] at hc
  injection hc with hc
  by_cases hsmall :
      other.size + 2 * (compressEncode oic other.size).2.1.length < ncov other.size
  · rw [if_pos hsmall] at hc
    have hm2 : o2 =
        { size := other.size, cov := [], icov := [], compressed := true,
          diag := (compressEncode oic other.size).1,
          offdiagIndex := (compressEncode oic other.size).2.1,
          offdiagValue := (compressEncode oic other.size).2.2 } :=
      (congrArg Prod.fst hc).symm
    have hcomp : o2.compressed = true := by rw [hm2]
    have hsize2 : o2.size = other.size := by rw [hm2]
    refine ⟨hcomp, ?_, ?_⟩
    · rw [CovarianceMatrix.addInverse, if_neg (by simp [hsz]),
        if_neg (by simp [not_le.mpr hw]), htic]
      simp only [Except.bind]
      rw [if_neg (by simp [hnc]), hoic]
      simp only [Except.map]
      refine ⟨_, rfl, ?_⟩
      intro p hp
      rw [getD_map_range _ hp]
    · rw [CovarianceMatrix.addInverse,
        if_neg (by rw [hsize2]; simp [hsz]),
        if_neg (by simp [not_le.mpr hw]), htic]
      simp only [Except.bind]
      rw [if_pos hcomp]
      simp only [Except.map]
      refine ⟨_, rfl, ?_⟩
      intro p hp
      rw [getD_map_range _ hp]
      have hdec : decodeAt o2.size o2.diag o2.offdiagIndex o2.offdiagValue p =
          oic.getD p 0 := by
        rw [hm2]
        exact decodeAt_compressEncode oic other.size (by rw [← hsz]; exact hp)
      rw [hdec]
  · rw [if_neg hsmall] at hc
    exact absurd (congrArg Prod.snd hc) (by simp)

/-- Witness for C9: accumulating the compressed `mDiag2c` into `mDiag2`
with weight 2 succeeds, and the entries read off the compact encoding give
`1 + 2·1 = 3` on the first diagonal and `2 + 2·2 = 6` on the second. -/
theorem claim_C9_witness :
    ∃ t2, mDiag2.addInverse mDiag2c 2 = Except.ok t2 ∧
      t2.icov.getD 0 0 = 3 ∧ t2.icov.getD 2 0 = 6 := by
  obtain ⟨-, -, t2, ht2, hval⟩ :=
    claim_C9 mDiag2 mDiag2 mDiag2c [1, 0, 2] [1, 0, 2] 2 rfl (by norm_num)
      rfl rfl rfl
  refine ⟨t2, ht2, ?_, ?_⟩
  · have h := hval 0 (by norm_num [ncov, mDiag2])
    norm_num [List.getD_eq_getElem?_getD] at h ⊢
    exact h
  · have h := hval 2 (by norm_num [ncov, mDiag2])
    norm_num [List.getD_eq_getElem?_getD] at h ⊢
    exact h

end likely

namespace likely

/-- `_setWeighted` only touches the data vector, its cache and the
weighted flag: the offset table, index list, covariance, finalized flag
and grid size all pass through unchanged. -/
lemma setWeightedState_frame (b : BinnedData) (w f : Bool) (b1 : BinnedData)
    (h : b.setWeightedState w f = Except.ok b1) :
    b1.offset = b.offset ∧ b1.index = b.index ∧
    b1.covariance = b.covariance ∧ b1.finalized = b.finalized ∧
    b1.nBinsTotal = b.nBinsTotal := by
  rw [BinnedData.setWeightedState] at h
  by_cases h1 : w = b.weighted
  · rw [if_pos h1] at h
    simp only [Except.map] at h
    injection h with h
    subst h
    cases f <;> simp
  · rw [if_neg h1] at h
    by_cases h2 : 0 < b.dataCache.length
    · rw [if_pos h2] at h
      simp only [Except.map] at h
      injection h with h
      subst h
      cases f <;> simp
    · rw [if_neg h2] at h
      cases ht : b.applyWeightTransform w with
      | error e => rw [ht] at h; simp [Except.map] at h
      | ok d =>
          rw [ht] at h
          simp only [Except.map] at h
          injection h with h
          subst h
          cases f <;> simp

/-- Claim C10: a `BinnedData` keeps an attached covariance matrix's size
equal to its number of bins with data: `setCovarianceMatrix` rejects a
matrix whose size differs from `getNBinsWithData`, `setData` refuses to
create a new bin entry while a covariance is attached, and both operations
preserve the invariant whenever they succeed. -/
theorem claim_C10 (b : BinnedData) :
    (∀ C : CovarianceMatrix, b.finalized = false →
      C.size ≠ b.getNBinsWithData →
      b.setCovarianceMatrix C =
        Except.error "setCovarianceMatrix: new covariance has the wrong size.") ∧
    (∀ (idx : ℕ) (value : ℚ) (weighted : Bool),
      idx < b.nBinsTotal → b.offset.getD idx none = none →
      b.hasCovariance = true →
      ∃ e, b.setData idx value weighted = Except.error e) ∧
    (b.CovSizeInv → ∀ (idx : ℕ) (value : ℚ) (weighted : Bool) (b2 : BinnedData),
      b.setData idx value weighted = Except.ok b2 → b2.CovSizeInv) ∧
    (∀ (C : CovarianceMatrix) (b2 : BinnedData),
      b.setCovarianceMatrix C = Except.ok b2 → b2.CovSizeInv) := by
  refine ⟨?_, ?_, ?_, ?_⟩
  · intro C hfin hsz
    rw [BinnedData.setCovarianceMatrix, if_neg (by simp [hfin]),
      if_pos (show C.size ≠ b.index.length from hsz)]
  · intro idx value weighted hidx hoff hcov
    rw [BinnedData.setData]
    cases hws : b.setWeightedState weighted true with
    | error e => exact ⟨e, rfl⟩
    | ok b1 =>
        obtain ⟨hO, hI, hC, hF, hN⟩ := setWeightedState_frame b weighted true b1 hws
        simp only [Except.bind]
        rw [if_neg (by rw [hN]; omega), hO, hoff]
        rw [BinnedData.hasCovariance] at hcov
        rw [if_pos (by rw [hC]; exact hcov)]
        exact ⟨_, rfl⟩
  · intro hinv idx value weighted b2 h
    rw [BinnedData.setData] at h
    cases hws : b.setWeightedState weighted true with
    | error e => rw [hws] at h; cases h
    | ok b1 =>
        obtain ⟨hO, hI, hC, hF, hN⟩ := setWeightedState_frame b weighted true b1 hws
        rw [hws] at h
        simp only [Except.bind] at h
        by_cases hrange : b1.nBinsTotal ≤ idx
        · rw [if_pos hrange] at h; cases h
        · rw [if_neg hrange] at h
          cases hoff : b1.offset.getD idx none with
          | some off =>
              rw [hoff] at h
              injection h with h
              subst h
              intro C hsome
              simp only at hsome
              rw [hC] at hsome
              rw [hI]
              exact hinv C hsome
          | none =>
              rw [hoff] at h
              by_cases hcv : b1.covariance.isSome = true
              · rw [if_pos hcv] at h; cases h
              · rw [if_neg hcv] at h
                by_cases hfin : b1.finalized = true
                · rw [if_pos hfin] at h; cases h
                · rw [if_neg hfin] at h
                  injection h with h
                  subst h
                  intro C hsome
                  simp only at hsome
                  rw [hsome] at hcv
                  exact absurd rfl hcv
  · intro C b2 h
    rw [BinnedData.setCovarianceMatrix] at h
    by_cases hfin : b.finalized = true
    · rw [if_pos (by simp [hfin])] at h; cases h
    · rw [if_neg (by simp [hfin])] at h
      by_cases hsz : C.size ≠ b.index.length
      · rw [if_pos hsz] at h; cases h
      · rw [if_neg hsz] at h
        injection h with h
        subst h
        intro C2 hsome
        simp only at hsome
        injection hsome with hsome
        subst hsome
        simpa using hsz

end likely

namespace likely

/-- Test fixture: a 1×1 covariance matrix. -/
def cOne : CovarianceMatrix :=
  { size := 1, cov := [2], icov := [], compressed := false,
    diag := [], offdiagIndex := [], offdiagValue := [] }

/-- Test fixture: a two-bin grid with one occupied bin and an attached
size-1 covariance matrix. -/
def bFix : BinnedData :=
  { nBinsTotal := 2, offset := [some 0, none], index := [0], data := [5],
    dataCache := [], weight := 1, weighted := false, finalized := false,
    covariance := some cOne }

/-- Witness for C10: on the concrete `bFix` (one occupied bin, size-1
covariance attached), attaching a size-2 matrix fails with the size error,
and creating a new bin entry via `setData` fails. -/
theorem claim_C10_witness :
    bFix.setCovarianceMatrix mEmpty2 =
      Except.error "setCovarianceMatrix: new covariance has the wrong size." ∧
    (∃ e, bFix.setData 1 7 false = Except.error e) := by
  refine ⟨(claim_C10 bFix).1 mEmpty2 rfl
    (by norm_num [mEmpty2, bFix, BinnedData.getNBinsWithData]), ?_⟩
  exact (claim_C10 bFix).2.1 1 7 false (by norm_num [bFix]) rfl rfl

end likely

namespace likely

/-- Claim C4: with the eigen decomposition's modes ranked by eigenvalue in
ascending order (`hsorted`, the order `getEigenModes` returns them in),
`projectOntoModes` keeps, for `0 < nkeep < size`, the top `nkeep` modes by
index order (`[0, nkeep)`), and for `-size < nkeep < 0` the bottom
`|nkeep|` modes (`[size−|nkeep|, size)`); in both cases it projects the
data vector onto the kept modes and returns the number of dropped modes,
`size − |nkeep|`. -/
theorem claim_C4 (b : BinnedData) (ev evec : List ℚ) (nkeep : ℤ)
    (b1 : BinnedData)
    (hfin : b.finalized = false) (hcov : b.covariance.isSome = true)
    (hsorted : List.Sorted (· ≤ ·) ev)
    (hw : b.setWeightedState false true = Except.ok b1)
    (hk0 : nkeep ≠ 0)
    (hku : nkeep < (b.getNBinsWithData : ℤ))
    (hkl : -(b.getNBinsWithData : ℤ) < nkeep) :
    b.projectOntoModes ev evec nkeep =
      Except.ok
        ({ b1 with data := modeProjected b1.data evec b.getNBinsWithData
                      (if 0 < nkeep then 0 else b.getNBinsWithData - nkeep.natAbs)
                      (if 0 < nkeep then nkeep.toNat else b.getNBinsWithData) },
         (b.getNBinsWithData : ℤ) - (nkeep.natAbs : ℤ)) := by
  simp only [BinnedData.getNBinsWithData] at hku hkl ⊢
  obtain ⟨C, hC⟩ := Option.isSome_iff_exists.mp hcov
  simp only [BinnedData.projectOntoModes]
  rw [if_neg (by simp [hfin])]
  rw [if_neg (by simp [hC])]
  rw [if_neg (by push_neg; exact ⟨hk0, by omega, by omega⟩)]
  rw [hw]
  simp only [Except.map]
  by_cases hpos : 0 < nkeep
  · simp only [if_pos hpos]
    have hnn : ((nkeep.natAbs : ℤ)) = nkeep := by omega
    rw [hnn]
  · simp only [if_neg hpos]
    have h1 : ((b.index.length : ℤ) + nkeep).toNat =
        b.index.length - nkeep.natAbs := by omega
    have h2 : (b.index.length : ℤ) + nkeep =
        (b.index.length : ℤ) - (nkeep.natAbs : ℤ) := by omega
    rw [h1, h2]

/-- Test fixture: a two-bin dataset with data `[1,2]`, unweighted, with a
covariance attached, for exercising the eigenmode projection. -/
def bW : BinnedData :=
  { nBinsTotal := 2, offset := [some 0, some 1], index := [0, 1],
    data := [1, 2], dataCache := [], weight := 1, weighted := false,
    finalized := false, covariance := some mDiag2 }

/-- Witness for C4: with identity eigenvectors and ascending eigenvalues
`[1,2]`, keeping `nkeep = 1` mode of two projects the data `[1,2]` onto
mode 0 (giving `[1,0]`) and reports 1 dropped mode. -/
theorem claim_C4_witness :
    bW.projectOntoModes [1, 2] [1, 0, 0, 1] 1 =
      Except.ok ({ bW with data := [1, 0] }, 1) := by
  have hsorted : List.Sorted (· ≤ ·) [(1 : ℚ), 2] := by
    norm_num [List.sorted_cons]
  have h := claim_C4 bW [1, 2] [1, 0, 0, 1] 1 bW rfl rfl hsorted rfl
    (by norm_num) (by norm_num [bW, BinnedData.getNBinsWithData])
    (by norm_num [bW, BinnedData.getNBinsWithData])
  rw [h]
  norm_num [modeProjected, bW, BinnedData.getNBinsWithData,
    ← Finset.range_eq_Ico, Finset.sum_range_succ, List.range_succ]

end likely

namespace likely

lemma packedOfFun_ne_nil {n : ℕ} (hn : 0 < n) (f : ℕ → ℕ → ℚ) :
    packedOfFun n f ≠ [] := by
  intro he
  have hl := packedOfFun_length n f
  rw [he] at hl
  have := ncov_pos hn
  simp at hl
  omega

lemma readsCov_uncompressed (m : CovarianceMatrix)
    (h : m.uncompress.cov ≠ []) : m.readsCov = Except.ok m.uncompress.cov := by
  simp [CovarianceMatrix.readsCov, h]

lemma readsICov_uncompressed (m : CovarianceMatrix)
    (h : m.uncompress.icov ≠ []) : m.readsICov = Except.ok m.uncompress.icov := by
  simp [CovarianceMatrix.readsICov, h]

lemma getCovariance_eq {m : CovarianceMatrix} {v : List ℚ}
    (h : m.readsCov = Except.ok v) {row col : ℕ}
    (hr : row < m.size) (hc : col < m.size) :
    m.getCovariance row col = Except.ok (packedGet v row col) := by
  rw [CovarianceMatrix.getCovariance, symmetricMatrixIndex, if_neg (by omega), h]
  rfl

lemma getInverseCovariance_eq {m : CovarianceMatrix} {v : List ℚ}
    (h : m.readsICov = Except.ok v) {row col : ℕ}
    (hr : row < m.size) (hc : col < m.size) :
    m.getInverseCovariance row col = Except.ok (packedGet v row col) := by
  rw [CovarianceMatrix.getInverseCovariance, symmetricMatrixIndex,
    if_neg (by omega), h]
  rfl

lemma sort_getD_mem (keep : Finset ℕ) {a : ℕ} (ha : a < keep.card) :
    (keep.sort (· ≤ ·)).getD a 0 ∈ keep := by
  have hlen : (keep.sort (· ≤ ·)).length = keep.card := Finset.length_sort _
  rw [List.getD_eq_getElem?_getD, List.getElem?_eq_getElem (by omega)]
  simp only [Option.getD_some]
  exact (Finset.mem_sort _).mp (List.getElem_mem _)

lemma prunedEntry (v : List ℚ) (keep : Finset ℕ) {a b : ℕ}
    (ha : a < keep.card) (hb : b < keep.card) :
    packedGet (packedOfFun keep.card fun x y =>
      packedGet v ((keep.sort (· ≤ ·)).getD x 0)
        ((keep.sort (· ≤ ·)).getD y 0)) a b =
    packedGet v ((keep.sort (· ≤ ·)).getD a 0)
      ((keep.sort (· ≤ ·)).getD b 0) := by
  rw [packedGet_packedOfFun _ _ ha hb]
  rcases le_total a b with hab | hab
  · rw [min_eq_left hab, max_eq_right hab]
  · rw [min_eq_right hab, max_eq_left hab, packedGet_symm]

end likely

namespace likely

/-- Claim C8: for a keep set entirely within range, `prune` succeeds with
a matrix whose size is the number of kept indices and whose covariance and
inverse-covariance entries at every pair of kept positions equal the
original matrix's entries at the corresponding kept global indices (the
kept indices enumerated in ascending order, as `std::set` iterates);
a keep set containing an out-of-range index makes `prune` fail, and the
failing call returns no new state, leaving the matrix as it was. -/
theorem claim_C8 (m : CovarianceMatrix) (keep : Finset ℕ) :
    ((∀ k ∈ keep, k < m.size) →
      ∃ m2, m.prune keep = Except.ok m2 ∧ m2.size = keep.card ∧
        m2.compressed = false ∧
        (∀ a b : ℕ, a < keep.card → b < keep.card →
          (m.uncompress.cov ≠ [] →
            m2.getCovariance a b =
              m.getCovariance ((keep.sort (· ≤ ·)).getD a 0)
                ((keep.sort (· ≤ ·)).getD b 0)) ∧
          (m.uncompress.icov ≠ [] →
            m2.getInverseCovariance a b =
              m.getInverseCovariance ((keep.sort (· ≤ ·)).getD a 0)
                ((keep.sort (· ≤ ·)).getD b 0)))) ∧
    ((∃ k ∈ keep, m.size ≤ k) →
      m.prune keep = Except.error "prune: keep index out of range") := by
  constructor
  · intro h
    refine ⟨_, by rw [CovarianceMatrix.prune, if_pos h], rfl, rfl, ?_⟩
    intro a b ha hb
    have hcard : 0 < keep.card := by omega
    have hka : (keep.sort (· ≤ ·)).getD a 0 < m.size := h _ (sort_getD_mem keep ha)
    have hkb : (keep.sort (· ≤ ·)).getD b 0 < m.size := h _ (sort_getD_mem keep hb)
    constructor
    · intro hcov
      rw [getCovariance_eq (readsCov_uncompressed m hcov) hka hkb]
      have hif : (if m.uncompress.cov = [] then ([] : List ℚ) else
          packedOfFun keep.card fun x y =>
            packedGet m.uncompress.cov ((keep.sort (· ≤ ·)).getD x 0)
              ((keep.sort (· ≤ ·)).getD y 0)) =
          packedOfFun keep.card fun x y =>
            packedGet m.uncompress.cov ((keep.sort (· ≤ ·)).getD x 0)
              ((keep.sort (· ≤ ·)).getD y 0) := if_neg hcov
      rw [getCovariance_eq (v := packedOfFun keep.card fun x y =>
          packedGet m.uncompress.cov ((keep.sort (· ≤ ·)).getD x 0)
            ((keep.sort (· ≤ ·)).getD y 0))
        (by
          rw [readsCov_uncompressed]
          · rw [uncompress_eq_self rfl]
            simp only
            rw [hif]
          · rw [uncompress_eq_self rfl]
            simp only
            rw [hif]
            exact packedOfFun_ne_nil hcard _) ha hb]
      rw [prunedEntry _ _ ha hb]
    · intro hicov
      rw [getInverseCovariance_eq (readsICov_uncompressed m hicov) hka hkb]
      have hif : (if m.uncompress.icov = [] then ([] : List ℚ) else
          packedOfFun keep.card fun x y =>
            packedGet m.uncompress.icov ((keep.sort (· ≤ ·)).getD x 0)
              ((keep.sort (· ≤ ·)).getD y 0)) =
          packedOfFun keep.card fun x y =>
            packedGet m.uncompress.icov ((keep.sort (· ≤ ·)).getD x 0)
              ((keep.sort (· ≤ ·)).getD y 0) := if_neg hicov
      rw [getInverseCovariance_eq (v := packedOfFun keep.card fun x y =>
          packedGet m.uncompress.icov ((keep.sort (· ≤ ·)).getD x 0)
            ((keep.sort (· ≤ ·)).getD y 0))
        (by
          rw [readsICov_uncompressed]
          · rw [uncompress_eq_self rfl]
            simp only
            rw [hif]
          · rw [uncompress_eq_self rfl]
            simp only
            rw [hif]
            exact packedOfFun_ne_nil hcard _) ha hb]
      rw [prunedEntry _ _ ha hb]
  · intro hbad
    have hni : ¬ ∀ k ∈ keep, k < m.size := by
      push_neg
      obtain ⟨k, hk, hk2⟩ := hbad
      exact ⟨k, hk, by omega⟩
    rw [CovarianceMatrix.prune, if_neg hni]

end likely

namespace likely

/-- Witness for C8: pruning `mDiag2` to the keep set `{1}` yields a 1×1
matrix whose only inverse-covariance entry equals the original entry at
(1,1), namely 2. -/
theorem claim_C8_witness :
    ∃ m2, mDiag2.prune {1} = Except.ok m2 ∧ m2.size = 1 ∧
      m2.getInverseCovariance 0 0 = Except.ok 2 := by
  have h := (claim_C8 mDiag2 {1}).1 (by
    intro k hk
    rw [Finset.mem_singleton] at hk
    subst hk
    norm_num [mDiag2])
  obtain ⟨m2, hp, hsz, -, hab⟩ := h
  have hcard : (({1} : Finset ℕ)).card = 1 := rfl
  have h2 := (hab 0 0 (by rw [hcard]; norm_num) (by rw [hcard]; norm_num)).2
    (by rw [uncompress_eq_self (rfl : mDiag2.compressed = false)]
        simp [mDiag2])
  rw [Finset.sort_singleton] at h2
  refine ⟨m2, hp, by rw [hsz, hcard], ?_⟩
  rw [h2]
  rfl

end likely
